import Mathlib

/-!
Verification development for the solara markdown component
(`solara/components/markdown.py`).  The Python module is shallowly embedded:
strings become `List Char`, the external collaborators (the Markdown engine,
the pygments highlighter, the Python `exec` machinery and the reactive render
call) are modelled as explicit parameters or small registries, and the
module's own functions are translated match-for-match from the source.
-/

set_option maxRecDepth 100000

namespace Solara

/-! ### Character-level utilities -/

/-- Whitespace characters that Python's `textwrap.dedent` treats as margin
material (the regexes in `textwrap` use the class `[ \t]`). -/
def isWsChar (c : Char) : Bool := c = ' ' || c = '\t'

/-- Boolean test that `p` is a leading segment of `l`. -/
def isPre : List Char → List Char → Bool
  | [], _ => true
  | _ :: _, [] => false
  | a :: as, b :: bs => a = b && isPre as bs

/-- Number of positions of `l` at which the pattern `p` occurs as a
contiguous segment. -/
def countPat (p : List Char) : List Char → Nat
  | [] => if isPre p [] then 1 else 0
  | c :: cs => (if isPre p (c :: cs) then 1 else 0) + countPat p cs

/-- Does the two-character sequence `x y` occur contiguously in the list? -/
def hasPair (x y : Char) : List Char → Bool
  | [] => false
  | a :: rest => (a = x && rest.head? = some y) || hasPair x y rest

/-- Last element of a character list, if any. -/
def lastOpt : List Char → Option Char
  | [] => none
  | a :: rest => some ((lastOpt rest).getD a)

/-- Longest common leading segment of two character lists. -/
def lcp : List Char → List Char → List Char
  | a :: as, b :: bs => if a = b then a :: lcp as bs else []
  | _, _ => []

/-- Split a character list at newline characters, like Python's
`text.split("\n")`: the result always has one more entry than the number of
newlines. -/
def splitLines : List Char → List (List Char)
  | [] => [[]]
  | c :: cs =>
    if c = '\n' then [] :: splitLines cs
    else
      match splitLines cs with
      | l :: ls => (c :: l) :: ls
      | [] => [[c]]

/-- Rejoin lines with newline separators, like `"\n".join(lines)`. -/
def joinLines : List (List Char) → List Char
  | [] => []
  | [l] => l
  | l :: ls => l ++ '\n' :: joinLines ls

/-! ### Decimal representation (Python `repr` of `int` and of `list`) -/

def digitChar : Nat → Char
  | 0 => '0'
  | 1 => '1'
  | 2 => '2'
  | 3 => '3'
  | 4 => '4'
  | 5 => '5'
  | 6 => '6'
  | 7 => '7'
  | 8 => '8'
  | _ => '9'

/-- Decimal digits of a natural number, most significant first, as Python's
`repr` prints a non-negative `int`. -/
def natRepr (n : Nat) : List Char :=
  if h : n < 10 then [digitChar n]
  else natRepr (n / 10) ++ [digitChar (n % 10)]
decreasing_by exact Nat.div_lt_self (by omega) (by omega)

/-- Python `repr` of an `int` (decimal, with a leading minus sign for
negative values). -/
def intRepr : Int → List Char
  | Int.ofNat n => natRepr n
  | Int.negSucc n => '-' :: natRepr (n + 1)

/-- `", ".join(pieces)`, the separator Python `repr` puts between list
elements. -/
def joinSep : List (List Char) → List Char
  | [] => []
  | [x] => x
  | x :: y :: r => x ++ ',' :: ' ' :: joinSep (y :: r)

/-- Python `repr` of a list of ints, e.g. `repr([1, 2]) = "[1, 2]"`. -/
def pyReprIntList (l : List Int) : List Char :=
  '[' :: (joinSep (l.map intRepr) ++ [']'])

/-- Python `str` of a bool: `"True"` or `"False"`. -/
def boolStr (b : Bool) : List Char := (if b then "True" else "False").data

/-! ### `textwrap.dedent`

Model of CPython's `textwrap.dedent`: lines consisting solely of `[ \t]`
characters are first normalized to empty lines; the margin is the longest
common leading-whitespace run of the remaining lines that have content; the
margin is then removed from the front of every line that starts with it. -/

def hasContentLine (l : List Char) : Bool := l.any (fun c => !(isWsChar c))

/-- A line matching `^[ \t]+$` (non-empty, all margin whitespace). -/
def wsOnlyLine (l : List Char) : Bool := !(l.isEmpty) && l.all isWsChar

/-- Normalization performed by `_whitespace_only_re.sub('', text)`. -/
def zapLine (l : List Char) : List Char := if wsOnlyLine l then [] else l

/-- The leading whitespace run captured by `_leading_whitespace_re`. -/
def indentOf (l : List Char) : List Char := l.takeWhile isWsChar

/-- Longest common prefix of a list of indents (`None` when there is no
content line at all, matching `margin = None` in the Python source). -/
def foldLcp : List (List Char) → Option (List Char)
  | [] => none
  | x :: xs => some (xs.foldl lcp x)

def marginOf (lines : List (List Char)) : Option (List Char) :=
  foldLcp ((lines.filter hasContentLine).map indentOf)

/-- Removal of the margin from one line (`re.sub(r'(?m)^' + margin, '', …)`
removes `margin` exactly from the lines that start with it). -/
def stripMargin (m l : List Char) : List Char :=
  if isPre m l then l.drop m.length else l

def dedentLines (ls : List (List Char)) : List (List Char) :=
  match marginOf (ls.map zapLine) with
  | none => ls.map zapLine
  | some m => if m = [] then ls.map zapLine else (ls.map zapLine).map (stripMargin m)

/-- `textwrap.dedent` on a whole document string. -/
def dedent (s : String) : String :=
  ⟨joinLines (dedentLines (splitLines s.data))⟩

/-- The document obtained by writing the same uniform whitespace run `p` in
front of every line of `s`. -/
def indentDoc (p s : String) : String :=
  ⟨joinLines ((splitLines s.data).map (fun l => p.data ++ l))⟩

/-! ### External collaborators (modelled) -/

/-- Modelled from the spec: the HTML escaping the external highlighter
applies to source text (pygments escapes `&`, `<`, `>`, `'` and `"`). -/
def escapeChar (c : Char) : List Char :=
  if c = '&' then "&amp;".data
  else if c = '<' then "&lt;".data
  else if c = '>' then "&gt;".data
  else if c = '\x27' then "&#39;".data
  else if c = '"' then "&quot;".data
  else [c]

def escapeHtml : List Char → List Char
  | [] => []
  | c :: cs => escapeChar c ++ escapeHtml cs

/-- Modelled from the spec: `pygments.highlight(src, lexer, HtmlFormatter())`,
the external syntax highlighter.  Token-level `<span>` markup is abstracted
away; the source text is HTML-escaped and wrapped in the standard
highlight `div`/`pre` shell. -/
def pygmentsHighlight (src : List Char) : List Char :=
  "<div class=\"highlight\"><pre>".data ++ escapeHtml src ++ "</pre></div>\n".data

/-- Modelled from the spec: a fixed sample of the alias registry consulted by
`pygments.lexers.get_lexer_by_name`; it decides which language tags have a
registered lexer. -/
def registeredLexerAliases : List String :=
  ["python", "py", "python3", "text", "markdown", "md", "html",
   "javascript", "js", "json", "bash", "c", "cpp", "css", "yaml"]

/-- Faults raised inside the fence pipeline: `ClassNotFound` from the
highlighter, the `NameError` raised by `_run_solara`, and compile/exec
faults from running fence code. -/
inductive HlErr where
  | classNotFound (msg : String)
  | nameError (msg : String)
  | executionError (msg : String)
deriving DecidableEq

/-- Modelled from the spec: `pygments.lexers.get_lexer_by_name`, which raises
`ClassNotFound` for an unregistered alias. -/
def getLexerByName (lang : String) : Except HlErr Unit :=
  if lang ∈ registeredLexerAliases then Except.ok ()
  else Except.error (HlErr.classNotFound ("no lexer for alias \x27" ++ lang ++ "\x27 found"))

/-- Modelled from the spec: Python `repr` applied to a caught exception,
e.g. `repr(NameError("m")) = "NameError(\x27m\x27)"`. -/
def reprHlErr : HlErr → List Char
  | HlErr.classNotFound m => "ClassNotFound(\x27".data ++ m.data ++ "\x27)".data
  | HlErr.nameError m => "NameError(\x27".data ++ m.data ++ "\x27)".data
  | HlErr.executionError m => "ExecutionError(\x27".data ++ m.data ++ "\x27)".data

/-- An opaque Python object stored in the executed scope. -/
inductive PyVal where
  | obj (n : Nat)
deriving DecidableEq

/-- Component trees built by `_run_solara`: either the bound `app` object
used directly, or `_AppLayoutEmbed(children=[ExceptionGuard(children=[Page()])])`. -/
inductive Component where
  | ofVal (v : PyVal)
  | callZeroArgs (v : PyVal)
  | exceptionGuard (child : Component)
  | appLayoutEmbed (child : Component)
deriving DecidableEq

/-- The `local_scope` dictionary produced by `exec`. -/
abbrev Scope := List (String × PyVal)

def Scope.lookup : Scope → String → Option PyVal
  | [], _ => none
  | (k, v) :: rest, key => if k = key then some v else Scope.lookup rest key

/-- Modelled from the spec: the two external effectful calls of
`_run_solara`.  `exec code scope` is `compile(code, "markdown", "exec")`
followed by `exec(ast, scope)` seen as a function from the code string and
the initial scope dictionary to the scope after execution (or a raised
fault); `renderApp c` is `solara.render(c, container=v.Html(tag="div"))`
into a freshly created detached container, returning the framework-assigned
widget model id `box._model_id` of that container. -/
structure ExecSem where
  exec : String → Scope → Except String Scope
  renderApp : Component → String

/-- A fenced block or an ordinary markdown span, as handed to the fence
callback by the external Markdown engine. -/
inductive Block where
  | text (t : String)
  | fence (language : String) (body : String)
deriving DecidableEq

/-- Modelled from the spec: the external Markdown engine (markdown-it-py
with its plugins for `MarkdownIt`, python-markdown with pymdownx for
`Markdown`).  `tokenize` splits the already-dedented document into ordinary
spans and fenced code blocks in document order; `renderText` renders the
ordinary spans.  The fence handler is supplied by this module. -/
structure Engine where
  tokenize : String → List Block
  renderText : String → List Char

/-! ### The module itself, translated from the source -/

/-- `html_no_execute_enabled` from the source. -/
def html_no_execute_enabled : String := "<div><i>Solara execution is not enabled</i></div>"

/-- The widget-reference markup returned by `_run_solara` for a given
`widget_id`. -/
def solaraWidgetHtml (widget_id : String) : List Char :=
  "<div class=\"solara-markdown-output v-card v-sheet elevation-7\"><jupyter-widget widget=\"IPY_MODEL_".data
    ++ widget_id.data
    ++ "\">loading widget...</jupyter-widget><div class=\"v-messages\">Live output</div></div>".data

/-- `_run_solara(code)`: compile and exec `code` in a fresh empty scope,
pick the entry point (`app`, else `Page`, else raise
`NameError("No Page of app defined")`), render it into a fresh detached
container and return the widget-reference markup. -/
def _run_solara (sem : ExecSem) (code : String) : Except HlErr (List Char) :=
  match sem.exec code [] with
  | Except.error m => Except.error (HlErr.executionError m)
  | Except.ok local_scope =>
    match local_scope.lookup "app" with
    | some a => Except.ok (solaraWidgetHtml (sem.renderApp (Component.ofVal a)))
    | none =>
      match local_scope.lookup "Page" with
      | some p =>
        Except.ok (solaraWidgetHtml (sem.renderApp
          (Component.appLayoutEmbed (Component.exceptionGuard (Component.callZeroArgs p)))))
      | none => Except.error (HlErr.nameError "No Page of app defined")

/-- `_highlight(src, language, unsafe_solara_execute, …)` from the source
(the execution-enabled flag is called `executeEnabled` here). -/
def _highlight (sem : ExecSem) (src : String) (language : String) (executeEnabled : Bool) :
    Except HlErr (List Char) :=
  let run_src_with_solara := language = "solara"
  let language := if run_src_with_solara then "python" else language
  match getLexerByName language with
  | Except.error e => Except.error e
  | Except.ok _ =>
    let html := pygmentsHighlight src.data
    if run_src_with_solara then
      if executeEnabled then
        match _run_solara sem src with
        | Except.ok html_widget => Except.ok (html ++ html_widget)
        | Except.error e => Except.error e
      else Except.ok (html ++ html_no_execute_enabled.data)
    else Except.ok html

/-- The `highlight` closure inside `Markdown.make_markdown_object`: call
`_highlight`, and on any exception log
`"Error highlighting code: %s" % src` and return `repr(e)` as the fragment. -/
def markdownHighlightFence (sem : ExecSem) (src : String) (language : String)
    (executeEnabled : Bool) : List Char × List String :=
  match _highlight sem src language executeEnabled with
  | Except.ok h => (h, [])
  | Except.error e => (reprHlErr e, ["Error highlighting code: " ++ src])

/-- Document rendering in the `MarkdownIt` component: every fence goes
through `highlight_code`, which calls `_highlight` with no exception
handler, so the first fault aborts the render. -/
def renderBlocksMI (e : Engine) (sem : ExecSem) (executeEnabled : Bool) :
    List Block → Except HlErr (List Char)
  | [] => Except.ok []
  | Block.text t :: rest =>
    match renderBlocksMI e sem executeEnabled rest with
    | Except.ok r => Except.ok (e.renderText t ++ r)
    | Except.error err => Except.error err
  | Block.fence lang body :: rest =>
    match _highlight sem body lang executeEnabled with
    | Except.error err => Except.error err
    | Except.ok h =>
      match renderBlocksMI e sem executeEnabled rest with
      | Except.ok r => Except.ok (h ++ r)
      | Except.error err => Except.error err

/-- Document rendering in the `Markdown` component: only the custom
`solara` fence is routed to this module (through the catching wrapper);
every other fence is rendered by the external `pymdownx.highlight`
extension, passed in as `otherFence`.  The second component collects the
logger output. -/
def renderBlocksMD (e : Engine) (otherFence : String → String → List Char) (sem : ExecSem)
    (executeEnabled : Bool) : List Block → List Char × List String
  | [] => ([], [])
  | Block.text t :: rest =>
    let r := renderBlocksMD e otherFence sem executeEnabled rest
    (e.renderText t ++ r.1, r.2)
  | Block.fence lang body :: rest =>
    let f := if lang = "solara" then markdownHighlightFence sem body lang executeEnabled
             else (otherFence lang body, [])
    let r := renderBlocksMD e otherFence sem executeEnabled rest
    (f.1 ++ r.1, f.2 ++ r.2)

def templateHead : String := "\n<template>\n    <div class=\"solara-markdown rendered_html jp-RenderedHTMLCommon\" style=\""

def templateMid : String := "\">"

def templateTail : String := "</div>\n</template>\n\n<script>\nmodule.exports = \x7b\n    mounted() \x7b\n        mermaid.init()\n        this.$el.querySelectorAll(\"a\").forEach(a => this.setupRouter(a))\n        window.md = this.$el\n    \x7d,\n    methods: \x7b\n        setupRouter(a) \x7b\n            let href = a.attributes[\x27href\x27].value;\n            if(href.startsWith(\"./\")) \x7b\n                // TODO: should we really do this?\n                href = location.pathname + href.substr(1);\n                a.attributes[\x27href\x27].href = href;\n                // console.log(\"change href to\", href);\n            \x7d\n            if(href.startsWith(\"./\") || href.startsWith(\"/\")) \x7b\n                // console.log(\"connect link with href=\", href, \"to router\")\n                a.onclick = e => \x7b\n                    console.log(\"clicked\", href)\n                    if(href.startsWith(\"./\")) \x7b\n                        solara.router.push(href);\n                    \x7d else \x7b\n                        solara.router.push(href);\n                    \x7d\n                    e.preventDefault()\n                \x7d\n            \x7d else if(href.startsWith(\"#\")) \x7b\n                // console.log(\"connect anchor with href=\", href, \"to custom javascript due to using <base>\")\n                href = location.pathname + href;\n                a.attributes[\x27href\x27].value = href;\n            \x7d else \x7b\n                console.log(\"href\", href, \"is not a local link\")\n            \x7d\n        \x7d\n    \x7d,\n    updated() \x7b\n        // if the html gets update, re-run mermaid\n        mermaid.init()\n    \x7d\n\x7d\n</script>\n    "

/-- `_markdown_template(html, style)` from the source. -/
def markdownTemplate (html style : List Char) : List Char :=
  templateHead.data ++ style ++ templateMid.data ++ html ++ templateTail.data

/-- The markup unit returned by both components: the vue template and the
re-render identity key attached with `.key(hash)`. -/
structure RenderedUnit where
  template : List Char
  key : List Char
deriving DecidableEq

/-- The re-render identity key of the `MarkdownIt` component.  The source
computes
`hashlib.sha256((html + str(unsafe_solara_execute) + repr(highlight)).encode("utf-8")).hexdigest()`.
The SHA-256 digest is a fixed deterministic function of exactly this input
string, so the digest is modelled by the digested string itself: every
equality stated about this key holds verbatim for the real hexdigest, and
every inequality holds for it up to SHA-256 collisions. -/
def identityKeyMI (html : List Char) (executeEnabled : Bool) (highlight : List Int) : List Char :=
  html ++ boolStr executeEnabled ++ pyReprIntList highlight

/-- The `MarkdownIt` component: dedent, render through the engine with
`highlight_code` as the fence callback (faults propagate), then wrap in the
template keyed by the identity hash. -/
def MarkdownIt (e : Engine) (sem : ExecSem) (md_text : String) (highlight : List Int)
    (executeEnabled : Bool) : Except HlErr RenderedUnit :=
  match renderBlocksMI e sem executeEnabled (e.tokenize (dedent md_text)) with
  | Except.error err => Except.error err
  | Except.ok html =>
    Except.ok ⟨markdownTemplate html [], identityKeyMI html executeEnabled highlight⟩

/-- The `Markdown` component: dedent, render with the catching `solara`
fence wrapper (never faults), then wrap in the template keyed by
`sha256(html + str(unsafe_solara_execute))` (modelled by its input string,
see `identityKeyMI`).  The second component is the collected logger
output. -/
def Markdown (e : Engine) (otherFence : String → String → List Char) (sem : ExecSem)
    (md_text : String) (executeEnabled : Bool) (style : String) : RenderedUnit × List String :=
  (⟨markdownTemplate (renderBlocksMD e otherFence sem executeEnabled (e.tokenize (dedent md_text))).1 style.data,
    (renderBlocksMD e otherFence sem executeEnabled (e.tokenize (dedent md_text))).1
      ++ boolStr executeEnabled⟩,
   (renderBlocksMD e otherFence sem executeEnabled (e.tokenize (dedent md_text))).2)

/-- The live-widget reference tag emitted by `_run_solara`. -/
def jwPat : List Char := "<jupyter-widget".data

/-- The pieces of `solaraWidgetHtml` around the widget-reference tag and the
widget id (used to count occurrences of `jwPat`). -/
def jwDivHead : List Char := "<div class=\"solara-markdown-output v-card v-sheet elevation-7\">".data

def jwMid : List Char := " widget=\"IPY_MODEL_".data

def jwPost : List Char := "\">loading widget...</jupyter-widget><div class=\"v-messages\">Live output</div></div>".data

/-! ### Concrete test fixtures (used to instantiate the theorems) -/

/-- A semantics whose fence code binds both `app` and `Page`. -/
def cSemApp : ExecSem :=
  ⟨fun _ _ => Except.ok [("app", PyVal.obj 1), ("Page", PyVal.obj 2)], fun _ => "a1b2c3d4"⟩

/-- Same behaviour as `cSemApp` on the empty initial scope, but a different
`exec` function elsewhere. -/
def cSemApp2 : ExecSem :=
  ⟨fun _ s => if s.isEmpty then Except.ok [("app", PyVal.obj 1), ("Page", PyVal.obj 2)]
              else Except.ok [], fun _ => "a1b2c3d4"⟩

/-- A semantics whose fence code binds only `Page`. -/
def cSemPage : ExecSem :=
  ⟨fun _ _ => Except.ok [("Page", PyVal.obj 2)], fun _ => "a1b2c3d4"⟩

/-- A semantics whose fence code binds neither `app` nor `Page`. -/
def cSemNone : ExecSem :=
  ⟨fun _ _ => Except.ok [("x", PyVal.obj 0)], fun _ => "a1b2c3d4"⟩

/-- Like `cSemApp` but assigning a different widget id (a distinct render
pass). -/
def cSemAlt : ExecSem :=
  ⟨fun _ _ => Except.ok [("app", PyVal.obj 1), ("Page", PyVal.obj 2)], fun _ => "ffff0000"⟩

def cEngineNil : Engine := ⟨fun _ => [], fun _ => []⟩

def cEnginePy : Engine := ⟨fun _ => [Block.fence "python" "x = 1"], fun _ => []⟩

def cEngineSolara : Engine := ⟨fun _ => [Block.fence "solara" "x = 1"], fun _ => []⟩

def cEngineBF : Engine := ⟨fun _ => [Block.fence "brainfuck9000" "++"], fun _ => []⟩

/-- The unit rendered by `MarkdownIt` over `cEngineSolara` with execution
disabled. -/
def uC2 : RenderedUnit :=
  ⟨markdownTemplate (pygmentsHighlight "x = 1".data ++ html_no_execute_enabled.data) [],
   identityKeyMI (pygmentsHighlight "x = 1".data ++ html_no_execute_enabled.data) false []⟩

/-- The unit rendered by `MarkdownIt` over `cEngineNil` (empty document). -/
def uC4 : RenderedUnit := ⟨markdownTemplate [] [], identityKeyMI [] true [1, 2]⟩

/-- The unit rendered by `MarkdownIt` over `cEnginePy` with execution
enabled. -/
def uC8 : RenderedUnit :=
  ⟨markdownTemplate (pygmentsHighlight "x = 1".data) [],
   identityKeyMI (pygmentsHighlight "x = 1".data) true []⟩

/-! ### Lemmas: leading segments, pair occurrences, pattern counting -/

theorem isPre_iff {p l : List Char} : isPre p l = true ↔ p <+: l := by
  induction p generalizing l with
  | nil => simp [isPre]
  | cons a as ih =>
    cases l with
    | nil => simp [isPre]
    | cons b bs => simp [isPre, List.cons_prefix_cons, ih, And.comm]

theorem isPre_append_self (l r : List Char) : isPre l (l ++ r) = true := by
  induction l with
  | nil => rfl
  | cons a as ih => simp [isPre, ih]

theorem lastOpt_cons_cons (a b : Char) (l : List Char) :
    lastOpt (a :: b :: l) = lastOpt (b :: l) := rfl

theorem lastOpt_append {b : List Char} (a : List Char) (hb : b ≠ []) :
    lastOpt (a ++ b) = lastOpt b := by
  induction a with
  | nil => rfl
  | cons c as ih =>
    cases hab : as ++ b with
    | nil => exact absurd (List.append_eq_nil.mp hab).2 hb
    | cons d ds =>
      show lastOpt (c :: (as ++ b)) = lastOpt b
      rw [hab, lastOpt_cons_cons, ← hab, ih]

theorem lastOpt_mem {l : List Char} {c : Char} (h : lastOpt l = some c) : c ∈ l := by
  induction l with
  | nil => simp [lastOpt] at h
  | cons a rest ih =>
    cases rest with
    | nil =>
      simp [lastOpt] at h
      simp [h]
    | cons b bs =>
      rw [lastOpt_cons_cons] at h
      exact List.mem_cons_of_mem _ (ih h)

theorem isPre_cons_cons {x y c : Char} {p l : List Char}
    (h : isPre (x :: y :: p) (c :: l) = true) : c = x ∧ l.head? = some y := by
  rw [isPre_iff, List.cons_prefix_cons] at h
  obtain ⟨hx, h2⟩ := h
  refine ⟨hx.symm, ?_⟩
  cases l with
  | nil => simp at h2
  | cons d ds =>
    rw [List.cons_prefix_cons] at h2
    rw [List.head?, h2.1]

theorem hasPair_no_left {x : Char} (y : Char) {l : List Char}
    (h : ∀ c ∈ l, c ≠ x) : hasPair x y l = false := by
  induction l with
  | nil => rfl
  | cons a rest ih =>
    have ha : a ≠ x := h a (List.mem_cons_self a rest)
    simp only [hasPair, Bool.or_eq_false_iff]
    constructor
    · simp [ha]
    · exact ih (fun c hc => h c (List.mem_cons_of_mem a hc))

theorem hasPair_append {x y : Char} {a b : List Char}
    (ha : hasPair x y a = false) (hb : hasPair x y b = false)
    (hc : ¬(lastOpt a = some x ∧ b.head? = some y)) :
    hasPair x y (a ++ b) = false := by
  induction a with
  | nil => exact hb
  | cons c as ih =>
    simp only [hasPair, Bool.or_eq_false_iff] at ha
    rw [List.cons_append]
    simp only [hasPair, Bool.or_eq_false_iff]
    refine ⟨?_, ?_⟩
    · by_cases hcx : c = x
      · by_cases hhd : (as ++ b).head? = some y
        · exfalso
          cases as with
          | nil =>
            simp only [List.nil_append] at hhd
            exact hc ⟨by simp [lastOpt, hcx], hhd⟩
          | cons a2 as2 =>
            have ha2y : a2 = y := by simpa using hhd
            have h1 := ha.1
            simp [hcx, ha2y] at h1
        · rw [decide_eq_false hhd, Bool.and_false]
      · simp [hcx]
    · cases as with
      | nil => exact hb
      | cons a2 as2 =>
        refine ih ha.2 ?_
        intro hpr
        exact hc ⟨by rw [lastOpt_cons_cons]; exact hpr.1, hpr.2⟩

theorem countPat_zero {x y : Char} (p : List Char) {l : List Char}
    (h : hasPair x y l = false) : countPat (x :: y :: p) l = 0 := by
  induction l with
  | nil => rfl
  | cons c cs ih =>
    simp only [hasPair, Bool.or_eq_false_iff] at h
    have htest : isPre (x :: y :: p) (c :: cs) = false := by
      cases hval : isPre (x :: y :: p) (c :: cs) with
      | false => rfl
      | true =>
        obtain ⟨hcx, hhd⟩ := isPre_cons_cons hval
        have h1 := h.1
        simp [hcx, hhd] at h1
    simp only [countPat, htest]
    simp [ih h.2]

theorem countPat_append_left {x y : Char} (p : List Char) {a b : List Char}
    (ha : hasPair x y a = false)
    (hc : ¬(lastOpt a = some x ∧ b.head? = some y)) :
    countPat (x :: y :: p) (a ++ b) = countPat (x :: y :: p) b := by
  induction a with
  | nil => rfl
  | cons c as ih =>
    simp only [hasPair, Bool.or_eq_false_iff] at ha
    rw [List.cons_append]
    have htest : isPre (x :: y :: p) (c :: (as ++ b)) = false := by
      cases hval : isPre (x :: y :: p) (c :: (as ++ b)) with
      | false => rfl
      | true =>
        obtain ⟨hcx, hhd⟩ := isPre_cons_cons hval
        cases as with
        | nil =>
          simp only [List.nil_append] at hhd
          exact absurd ⟨by simp [lastOpt, hcx], hhd⟩ hc
        | cons a2 as2 =>
          have ha2y : a2 = y := by simpa using hhd
          have h1 := ha.1
          simp [hcx, ha2y] at h1
    simp only [countPat, htest]
    have hrest : countPat (x :: y :: p) (as ++ b) = countPat (x :: y :: p) b := by
      cases as with
      | nil => rfl
      | cons a2 as2 =>
        refine ih ha.2 ?_
        intro hpr
        exact hc ⟨by rw [lastOpt_cons_cons]; exact hpr.1, hpr.2⟩
    simp [hrest]

theorem countPat_cons_self (x : Char) (xs r : List Char) :
    countPat (x :: xs) ((x :: xs) ++ r) = 1 + countPat (x :: xs) (xs ++ r) := by
  rw [List.cons_append]
  simp [countPat, isPre, isPre_append_self]

/-! ### Lemmas: HTML escaping and the highlighter fragments -/

theorem escapeChar_no_lt (c : Char) : '<' ∉ escapeChar c := by
  unfold escapeChar
  split
  · decide
  · split
    · decide
    · split
      · decide
      · split
        · decide
        · split
          · decide
          · rename_i h1 h2 h3 h4 h5
            intro hm
            rw [List.mem_singleton] at hm
            exact h2 hm.symm

theorem escapeHtml_no_lt (l : List Char) : '<' ∉ escapeHtml l := by
  induction l with
  | nil => simp [escapeHtml]
  | cons c cs ih =>
    simp only [escapeHtml, List.mem_append]
    rintro (h | h)
    · exact escapeChar_no_lt c h
    · exact ih h

theorem pyg_no_pair (src : List Char) : hasPair '<' 'j' (pygmentsHighlight src) = false := by
  unfold pygmentsHighlight
  apply hasPair_append
  · apply hasPair_append
    · decide
    · exact hasPair_no_left 'j' (fun c hc he => escapeHtml_no_lt src (he ▸ hc))
    · intro hpr
      exact absurd hpr.1 (by decide)
  · decide
  · intro hpr
    exact absurd hpr.2 (by decide)

theorem pyg_lastOpt (src : List Char) : lastOpt (pygmentsHighlight src) = some '\n' := by
  unfold pygmentsHighlight
  rw [lastOpt_append _ (by decide)]
  decide

/-! ### Lemmas: the `_highlight` dispatcher -/

theorem highlight_non_solara (sem sem' : ExecSem) (src lang : String) (ex ex' : Bool)
    (h : lang ≠ "solara") :
    _highlight sem src lang ex = _highlight sem' src lang ex' := by
  unfold _highlight
  simp only [h, if_false]

theorem highlight_solara_disabled (sem : ExecSem) (src : String) :
    _highlight sem src "solara" false
      = Except.ok (pygmentsHighlight src.data ++ html_no_execute_enabled.data) := rfl

theorem highlight_solara_enabled (sem : ExecSem) (src : String) :
    _highlight sem src "solara" true
      = match _run_solara sem src with
        | Except.ok w => Except.ok (pygmentsHighlight src.data ++ w)
        | Except.error e => Except.error e := rfl

theorem highlight_other_lang (sem : ExecSem) (src lang : String) (ex : Bool)
    (h : lang ≠ "solara") :
    _highlight sem src lang ex
      = match getLexerByName lang with
        | Except.error e => Except.error e
        | Except.ok _ => Except.ok (pygmentsHighlight src.data) := by
  unfold _highlight
  simp only [h, if_false]

theorem highlight_frag_benign {sem : ExecSem} {src lang : String} {ex : Bool} {h2 : List Char}
    (hf : lang ≠ "solara" ∨ ex = false)
    (hok : _highlight sem src lang ex = Except.ok h2) :
    hasPair '<' 'j' h2 = false ∧ lastOpt h2 ≠ some '<' := by
  have hpyg : hasPair '<' 'j' (pygmentsHighlight src.data) = false := pyg_no_pair src.data
  by_cases hl : lang = "solara"
  · subst hl
    have hexf : ex = false := by
      cases hf with
      | inl hne => exact absurd rfl hne
      | inr hex => exact hex
    subst hexf
    rw [highlight_solara_disabled] at hok
    have hh2 : h2 = pygmentsHighlight src.data ++ html_no_execute_enabled.data := by
      injection hok with h
      exact h.symm
    subst hh2
    constructor
    · apply hasPair_append hpyg (by decide)
      intro hpr
      exact absurd hpr.2 (by decide)
    · rw [lastOpt_append _ (by decide)]
      decide
  · rw [highlight_other_lang sem src lang ex hl] at hok
    cases hlex : getLexerByName lang with
    | error e =>
      rw [hlex] at hok
      exact absurd hok (by simp)
    | ok u =>
      rw [hlex] at hok
      have hh2 : h2 = pygmentsHighlight src.data := by
        injection hok with h
        exact h.symm
      subst hh2
      refine ⟨hpyg, ?_⟩
      rw [pyg_lastOpt]
      decide

/-! ### Lemmas: document rendering in `MarkdownIt` -/

theorem rb_append (e : Engine) (sem : ExecSem) (ex : Bool) (l1 l2 : List Block) :
    renderBlocksMI e sem ex (l1 ++ l2)
      = match renderBlocksMI e sem ex l1 with
        | Except.error err => Except.error err
        | Except.ok h1 =>
          match renderBlocksMI e sem ex l2 with
          | Except.error err => Except.error err
          | Except.ok h2 => Except.ok (h1 ++ h2) := by
  induction l1 with
  | nil =>
    simp only [List.nil_append, renderBlocksMI]
    cases renderBlocksMI e sem ex l2 <;> simp
  | cons b bs ih =>
    cases b with
    | text t =>
      rw [List.cons_append]
      simp only [renderBlocksMI, ih]
      cases renderBlocksMI e sem ex bs <;> cases renderBlocksMI e sem ex l2 <;>
        simp [List.append_assoc]
    | fence lang body =>
      rw [List.cons_append]
      simp only [renderBlocksMI, ih]
      cases _highlight sem body lang ex <;> cases renderBlocksMI e sem ex bs <;>
        cases renderBlocksMI e sem ex l2 <;> simp [List.append_assoc]

theorem rb_sem_irrel (e : Engine) (sem1 sem2 : ExecSem) (ex : Bool) (bs : List Block)
    (h : ∀ lang body, Block.fence lang body ∈ bs → lang ≠ "solara" ∨ ex = false) :
    renderBlocksMI e sem1 ex bs = renderBlocksMI e sem2 ex bs := by
  induction bs with
  | nil => rfl
  | cons b rest ih =>
    have ih' := ih (fun lang body hm => h lang body (List.mem_cons_of_mem _ hm))
    cases b with
    | text t => simp only [renderBlocksMI, ih']
    | fence lang body =>
      have hf := h lang body (List.mem_cons_self _ _)
      have hh : _highlight sem1 body lang ex = _highlight sem2 body lang ex := by
        by_cases hl : lang = "solara"
        · subst hl
          have hexf : ex = false := by
            cases hf with
            | inl hne => exact absurd rfl hne
            | inr hex => exact hex
          subst hexf
          rw [highlight_solara_disabled, highlight_solara_disabled]
        · exact highlight_non_solara sem1 sem2 body lang ex ex hl
      simp only [renderBlocksMI, hh, ih']

theorem rb_benign {e : Engine} {sem : ExecSem} {ex : Bool} {bs : List Block} {html : List Char}
    (hT : ∀ s, hasPair '<' 'j' (e.renderText s) = false ∧ lastOpt (e.renderText s) ≠ some '<')
    (hb : ∀ lang body, Block.fence lang body ∈ bs → lang ≠ "solara" ∨ ex = false)
    (hok : renderBlocksMI e sem ex bs = Except.ok html) :
    hasPair '<' 'j' html = false ∧ lastOpt html ≠ some '<' := by
  induction bs generalizing html with
  | nil =>
    simp only [renderBlocksMI] at hok
    injection hok with h
    subst h
    exact ⟨rfl, by decide⟩
  | cons b rest ih =>
    cases b with
    | text t =>
      simp only [renderBlocksMI] at hok
      cases hrest : renderBlocksMI e sem ex rest with
      | error err =>
        rw [hrest] at hok
        exact absurd hok (by simp)
      | ok r =>
        rw [hrest] at hok
        injection hok with h
        subst h
        obtain ⟨ihp, ihl⟩ :=
          ih (fun lang body hm => hb lang body (List.mem_cons_of_mem _ hm)) hrest
        constructor
        · exact hasPair_append (hT t).1 ihp (fun hpr => (hT t).2 hpr.1)
        · cases hr : r with
          | nil =>
            subst hr
            rw [List.append_nil]
            exact (hT t).2
          | cons rc rcs =>
            rw [lastOpt_append _ (List.cons_ne_nil rc rcs), ← hr]
            exact ihl
    | fence lang body =>
      simp only [renderBlocksMI] at hok
      cases hfr : _highlight sem body lang ex with
      | error err =>
        rw [hfr] at hok
        exact absurd hok (by simp)
      | ok frag =>
        rw [hfr] at hok
        cases hrest : renderBlocksMI e sem ex rest with
        | error err =>
          rw [hrest] at hok
          exact absurd hok (by simp)
        | ok r =>
          rw [hrest] at hok
          injection hok with h
          subst h
          obtain ⟨ihp, ihl⟩ :=
            ih (fun lang2 body2 hm => hb lang2 body2 (List.mem_cons_of_mem _ hm)) hrest
          obtain ⟨hfp, hfl⟩ :=
            highlight_frag_benign (hb lang body (List.mem_cons_self _ _)) hfr
          constructor
          · exact hasPair_append hfp ihp (fun hpr => hfl hpr.1)
          · cases hr : r with
            | nil =>
              subst hr
              rw [List.append_nil]
              exact hfl
            | cons rc rcs =>
              rw [lastOpt_append _ (List.cons_ne_nil rc rcs), ← hr]
              exact ihl

/-! ### Lemmas: `textwrap.dedent` and indentation invariance -/

theorem indentOf_pre (l : List Char) : indentOf l <+: l := List.takeWhile_prefix _

theorem lcp_pre_left : ∀ a b : List Char, lcp a b <+: a := by
  intro a
  induction a with
  | nil => intro b; cases b <;> simp [lcp]
  | cons x as ih =>
    intro b
    cases b with
    | nil => simp [lcp]
    | cons y bs =>
      by_cases hxy : x = y
      · simp only [lcp, hxy, if_true]
        rw [← hxy]
        exact (List.cons_prefix_cons).mpr ⟨rfl, ih bs⟩
      · simp [lcp, hxy]

theorem lcp_pre_right : ∀ a b : List Char, lcp a b <+: b := by
  intro a
  induction a with
  | nil => intro b; cases b <;> simp [lcp]
  | cons x as ih =>
    intro b
    cases b with
    | nil => simp [lcp]
    | cons y bs =>
      by_cases hxy : x = y
      · simp only [lcp, hxy, if_true]
        exact (List.cons_prefix_cons).mpr ⟨rfl, ih bs⟩
      · simp [lcp, hxy]

theorem lcp_append_same : ∀ (p a b : List Char), lcp (p ++ a) (p ++ b) = p ++ lcp a b := by
  intro p
  induction p with
  | nil => intro a b; rfl
  | cons c cs ih => intro a b; simp [lcp, ih]

theorem foldl_lcp_map (p : List Char) :
    ∀ (xs : List (List Char)) (x : List Char),
      (xs.map (fun l => p ++ l)).foldl lcp (p ++ x) = p ++ xs.foldl lcp x := by
  intro xs
  induction xs with
  | nil => intro x; rfl
  | cons y ys ih =>
    intro x
    simp only [List.map_cons, List.foldl_cons]
    rw [lcp_append_same, ih]

theorem foldl_lcp_pre_init : ∀ (xs : List (List Char)) (z : List Char), xs.foldl lcp z <+: z := by
  intro xs
  induction xs with
  | nil => intro z; exact List.prefix_refl z
  | cons y ys ih =>
    intro z
    simp only [List.foldl_cons]
    exact (ih (lcp z y)).trans (lcp_pre_left z y)

theorem foldl_lcp_pre_mem : ∀ (xs : List (List Char)) (z y : List Char),
    y ∈ xs → xs.foldl lcp z <+: y := by
  intro xs
  induction xs with
  | nil => intro z y hy; simp at hy
  | cons w ws ih =>
    intro z y hy
    simp only [List.foldl_cons]
    rcases List.mem_cons.mp hy with h | h
    · subst h
      exact (foldl_lcp_pre_init ws (lcp z y)).trans (lcp_pre_right z y)
    · exact ih (lcp z w) y h

theorem zap_eq (l : List Char) : zapLine l = if hasContentLine l then l else [] := by
  unfold zapLine wsOnlyLine hasContentLine
  cases hany : l.any (fun c => !(isWsChar c)) with
  | true =>
    obtain ⟨c, hc, hcw⟩ := List.any_eq_true.mp hany
    have hall : l.all isWsChar = false := by
      rw [List.all_eq_false]
      exact ⟨c, hc, by simpa using hcw⟩
    simp [hall]
  | false =>
    have hall : ∀ c ∈ l, isWsChar c = true := by
      intro c hc
      by_contra hne
      have : l.any (fun c => !(isWsChar c)) = true :=
        List.any_eq_true.mpr ⟨c, hc, by simpa using hne⟩
      rw [hany] at this
      exact absurd this (by simp)
    cases l with
    | nil => simp
    | cons c cs =>
      have : (c :: cs).all isWsChar = true := List.all_eq_true.mpr hall
      simp [this]

theorem hasContent_ws_append {p : List Char} (hp : p.all isWsChar = true) (l : List Char) :
    hasContentLine (p ++ l) = hasContentLine l := by
  unfold hasContentLine
  rw [List.any_append]
  have : p.any (fun c => !(isWsChar c)) = false := by
    rw [List.any_eq_false]
    intro c hc
    have := List.all_eq_true.mp hp c hc
    simp [this]
  rw [this, Bool.false_or]

theorem indentOf_ws_append {p : List Char} (hp : p.all isWsChar = true) (l : List Char) :
    indentOf (p ++ l) = p ++ indentOf l := by
  unfold indentOf
  induction p with
  | nil => rfl
  | cons c cs ih =>
    have hc : isWsChar c = true := List.all_eq_true.mp hp c (List.mem_cons_self _ _)
    have hcs : cs.all isWsChar = true := by
      rw [List.all_eq_true]
      intro d hd
      exact List.all_eq_true.mp hp d (List.mem_cons_of_mem _ hd)
    rw [List.cons_append]
    simp only [List.takeWhile_cons, hc, if_true]
    rw [ih hcs]
    simp

theorem zap_ws_append {p : List Char} (hp : p.all isWsChar = true) (l : List Char) :
    zapLine (p ++ l) = if hasContentLine l then p ++ l else [] := by
  rw [zap_eq, hasContent_ws_append hp]

theorem filter_map_zap (ls : List (List Char)) :
    (ls.map zapLine).filter hasContentLine = ls.filter hasContentLine := by
  induction ls with
  | nil => rfl
  | cons l rest ih =>
    simp only [List.map_cons]
    rw [zap_eq l]
    cases hc : hasContentLine l with
    | true => simp [List.filter_cons, hc, ih]
    | false =>
      have h0 : hasContentLine ([] : List Char) = false := rfl
      simp [List.filter_cons, hc, h0, ih]

theorem filter_map_zap_prefixed {p : List Char} (hp : p.all isWsChar = true)
    (ls : List (List Char)) :
    ((ls.map (fun l => p ++ l)).map zapLine).filter hasContentLine
      = (ls.filter hasContentLine).map (fun l => p ++ l) := by
  induction ls with
  | nil => rfl
  | cons l rest ih =>
    simp only [List.map_cons]
    rw [zap_ws_append hp l]
    cases hc : hasContentLine l with
    | true =>
      have hcp : hasContentLine (p ++ l) = true := by rw [hasContent_ws_append hp, hc]
      rw [List.map_map] at ih
      simp [List.filter_cons, hc, hcp, ih]
    | false =>
      have h0 : hasContentLine ([] : List Char) = false := rfl
      rw [List.map_map] at ih
      simp [List.filter_cons, hc, h0, ih]

theorem marginOf_none_iff (X : List (List Char)) :
    marginOf X = none ↔ X.filter hasContentLine = [] := by
  unfold marginOf foldLcp
  cases hf : (X.filter hasContentLine).map indentOf with
  | nil =>
    simp only [List.map_eq_nil_iff] at hf
    simp [hf]
  | cons x xs =>
    constructor
    · intro h; exact absurd h (by simp)
    · intro h; rw [h] at hf; exact absurd hf (by simp)

theorem foldLcp_map (p : List Char) (X : List (List Char)) :
    foldLcp (X.map (fun l => p ++ l)) = Option.map (fun m => p ++ m) (foldLcp X) := by
  cases X with
  | nil => rfl
  | cons x xs =>
    simp only [List.map_cons, foldLcp]
    rw [foldl_lcp_map p xs x]
    rfl

theorem marginOf_prefixed {p : List Char} (hp : p.all isWsChar = true)
    (ls : List (List Char)) :
    marginOf ((ls.map (fun l => p ++ l)).map zapLine)
      = Option.map (fun m => p ++ m) (marginOf (ls.map zapLine)) := by
  unfold marginOf
  rw [filter_map_zap_prefixed hp, filter_map_zap]
  rw [List.map_map]
  have hco : (indentOf ∘ fun l => p ++ l) = (fun l => p ++ indentOf l) := by
    funext l
    exact indentOf_ws_append hp l
  rw [hco]
  have hmm : ((ls.filter hasContentLine).map fun l => p ++ indentOf l)
      = (((ls.filter hasContentLine).map indentOf).map fun l => p ++ l) := by
    rw [List.map_map]
    rfl
  rw [hmm, foldLcp_map]

theorem margin_pre_of_content {m : List Char} {ls : List (List Char)}
    (hm : marginOf (ls.map zapLine) = some m) {l : List Char} (hl : l ∈ ls)
    (hc : hasContentLine l = true) : m <+: l := by
  unfold marginOf at hm
  rw [filter_map_zap] at hm
  have hmem : indentOf l ∈ (ls.filter hasContentLine).map indentOf :=
    List.mem_map_of_mem _ (List.mem_filter.mpr ⟨hl, hc⟩)
  have hpre : m <+: indentOf l := by
    cases hfm : (ls.filter hasContentLine).map indentOf with
    | nil => rw [hfm] at hm; exact absurd hm (by simp [foldLcp])
    | cons x xs =>
      rw [hfm] at hm hmem
      unfold foldLcp at hm
      injection hm with hm2
      subst hm2
      rcases List.mem_cons.mp hmem with h | h
      · rw [← h]; exact foldl_lcp_pre_init xs (indentOf l)
      · exact foldl_lcp_pre_mem xs x (indentOf l) h
  exact hpre.trans (indentOf_pre l)

theorem isPre_nil_false {p : List Char} (hp : p ≠ []) : isPre p [] = false := by
  cases p with
  | nil => exact absurd rfl hp
  | cons c cs => rfl

theorem dedentLines_prefixed {p : List Char} (hp : p.all isWsChar = true)
    (ls : List (List Char)) :
    dedentLines (ls.map (fun l => p ++ l)) = dedentLines ls := by
  by_cases hpne : p = []
  · subst hpne
    have : ls.map (fun l => ([] : List Char) ++ l) = ls := by
      simp
    rw [this]
  · unfold dedentLines
    rw [marginOf_prefixed hp ls]
    cases hm : marginOf (ls.map zapLine) with
    | none =>
      simp only [Option.map]
      have hfe : ls.filter hasContentLine = [] := by
        have := (marginOf_none_iff (ls.map zapLine)).mp hm
        rw [filter_map_zap] at this
        exact this
      have hnc : ∀ l ∈ ls, hasContentLine l = false := by
        intro l hl
        by_contra hne
        have hct : hasContentLine l = true := by
          cases hv : hasContentLine l
          · exact absurd hv hne
          · rfl
        have : l ∈ ls.filter hasContentLine := List.mem_filter.mpr ⟨hl, hct⟩
        rw [hfe] at this
        simp at this
      rw [List.map_map]
      apply List.map_eq_map_iff.mpr
      intro l hl
      show zapLine (p ++ l) = zapLine l
      rw [zap_ws_append hp, zap_eq, hnc l hl]
      simp
    | some m =>
      simp only [Option.map]
      have hpm_ne : ¬(p ++ m = []) := by
        intro h
        exact hpne (List.append_eq_nil.mp h).1
      by_cases hmn : m = []
      · subst hmn
        simp only [List.append_nil]
        rw [if_neg hpne, if_pos trivial]
        rw [List.map_map, List.map_map]
        apply List.map_eq_map_iff.mpr
        intro l hl
        show stripMargin p (zapLine (p ++ l)) = zapLine l
        rw [zap_ws_append hp, zap_eq]
        cases hc : hasContentLine l with
        | true =>
          rw [if_pos rfl, if_pos rfl]
          unfold stripMargin
          rw [isPre_append_self, if_pos rfl]
          exact List.drop_left p l
        | false =>
          rw [if_neg Bool.false_ne_true, if_neg Bool.false_ne_true]
          unfold stripMargin
          cases hip : isPre p [] <;> simp
      · rw [if_neg hmn, if_neg hpm_ne]
        rw [List.map_map, List.map_map, List.map_map]
        apply List.map_eq_map_iff.mpr
        intro l hl
        show stripMargin (p ++ m) (zapLine (p ++ l)) = stripMargin m (zapLine l)
        rw [zap_ws_append hp, zap_eq]
        cases hc : hasContentLine l with
        | true =>
          rw [if_pos rfl, if_pos rfl]
          have hml : m <+: l := margin_pre_of_content hm hl hc
          have hpml : (p ++ m) <+: (p ++ l) := by
            obtain ⟨t, ht⟩ := hml
            exact ⟨t, by rw [← ht, List.append_assoc]⟩
          unfold stripMargin
          rw [if_pos (isPre_iff.mpr hpml), if_pos (isPre_iff.mpr hml)]
          rw [List.length_append]
          exact List.drop_append m.length
        | false =>
          rw [if_neg Bool.false_ne_true, if_neg Bool.false_ne_true]
          unfold stripMargin
          have h1 : isPre (p ++ m) [] = false := by
            cases hpm : p ++ m with
            | nil => exact absurd hpm hpm_ne
            | cons c cs => rfl
          have h2 : isPre m [] = false := by
            cases hmm : m with
            | nil => exact absurd hmm hmn
            | cons c cs => rfl
          simp [h1, h2]

theorem splitLines_ne_nil (l : List Char) : splitLines l ≠ [] := by
  cases l with
  | nil => simp [splitLines]
  | cons c cs =>
    unfold splitLines
    by_cases hc : c = '\n'
    · simp [hc]
    · simp only [hc, if_false]
      cases splitLines cs <;> simp

theorem splitLines_no_nl (l : List Char) : ∀ x ∈ splitLines l, '\n' ∉ x := by
  induction l with
  | nil =>
    intro x hx
    simp [splitLines] at hx
    simp [hx]
  | cons c cs ih =>
    intro x hx
    unfold splitLines at hx
    by_cases hc : c = '\n'
    · simp only [hc, if_true] at hx
      rcases List.mem_cons.mp hx with h | h
      · simp [h]
      · exact ih x h
    · simp only [hc, if_false] at hx
      cases hr : splitLines cs with
      | nil => exact absurd hr (splitLines_ne_nil cs)
      | cons l1 ls1 =>
        rw [hr] at hx
        rcases List.mem_cons.mp hx with h | h
        · subst h
          intro hmem
          rcases List.mem_cons.mp hmem with h2 | h2
          · exact hc h2.symm
          · exact ih l1 (by rw [hr]; exact List.mem_cons_self _ _) h2
        · exact ih x (by rw [hr]; exact List.mem_cons_of_mem _ h)

theorem splitLines_single {x : List Char} (hx : '\n' ∉ x) : splitLines x = [x] := by
  induction x with
  | nil => rfl
  | cons c cs ih =>
    have hc : c ≠ '\n' := fun h => hx (by rw [h]; exact List.mem_cons_self _ _)
    have hcs : '\n' ∉ cs := fun h => hx (List.mem_cons_of_mem _ h)
    unfold splitLines
    simp only [hc, if_false]
    rw [ih hcs]

theorem split_join : ∀ (ls : List (List Char)), ls ≠ [] → (∀ x ∈ ls, '\n' ∉ x) →
    splitLines (joinLines ls) = ls := by
  intro ls
  induction ls with
  | nil => intro h; exact absurd rfl h
  | cons x rest ih =>
    intro _ hnl
    cases rest with
    | nil =>
      show splitLines (joinLines [x]) = [x]
      unfold joinLines
      exact splitLines_single (hnl x (List.mem_cons_self _ _))
    | cons y ys =>
      show splitLines (joinLines (x :: y :: ys)) = x :: y :: ys
      have hx : '\n' ∉ x := hnl x (List.mem_cons_self _ _)
      have hj : joinLines (x :: y :: ys) = x ++ '\n' :: joinLines (y :: ys) := rfl
      rw [hj]
      have hstep : ∀ (a : List Char) (r : List Char), '\n' ∉ a →
          splitLines (a ++ '\n' :: r) = a :: splitLines r := by
        intro a
        induction a with
        | nil =>
          intro r _
          rfl
        | cons c cs ihc =>
          intro r ha
          have hc : c ≠ '\n' := fun h => ha (by rw [h]; exact List.mem_cons_self _ _)
          have hcs : '\n' ∉ cs := fun h => ha (List.mem_cons_of_mem _ h)
          have he : splitLines ((c :: cs) ++ '\n' :: r)
              = match splitLines (cs ++ '\n' :: r) with
                | l :: ls => (c :: l) :: ls
                | [] => [[c]] := by
            rw [List.cons_append]
            show (if c = '\n' then [] :: splitLines (cs ++ '\n' :: r)
                  else match splitLines (cs ++ '\n' :: r) with
                       | l :: ls => (c :: l) :: ls
                       | [] => [[c]]) = _
            rw [if_neg hc]
          rw [he, ihc r hcs]
      rw [hstep x (joinLines (y :: ys)) hx]
      rw [ih (List.cons_ne_nil y ys) (fun z hz => hnl z (List.mem_cons_of_mem _ hz))]

theorem dedent_indent {p s : String} (hp : p.data.all isWsChar = true) :
    dedent (indentDoc p s) = dedent s := by
  unfold dedent indentDoc
  have hdata : (String.mk (joinLines ((splitLines s.data).map (fun l => p.data ++ l)))).data
      = joinLines ((splitLines s.data).map (fun l => p.data ++ l)) := rfl
  rw [hdata]
  have hnn : (splitLines s.data).map (fun l => p.data ++ l) ≠ [] := by
    intro h
    rw [List.map_eq_nil_iff] at h
    exact splitLines_ne_nil s.data h
  have hpnl : '\n' ∉ p.data := by
    intro hmem
    have := List.all_eq_true.mp hp '\n' hmem
    simp [isWsChar] at this
  have hnl : ∀ x ∈ (splitLines s.data).map (fun l => p.data ++ l), '\n' ∉ x := by
    intro x hx
    obtain ⟨l, hl, hlx⟩ := List.mem_map.mp hx
    subst hlx
    intro hmem
    rcases List.mem_append.mp hmem with h | h
    · exact hpnl h
    · exact splitLines_no_nl s.data l hl h
  rw [split_join _ hnn hnl]
  rw [dedentLines_prefixed hp]

/-! ### Lemmas: injectivity of the identity-key encoding -/

theorem natRepr_ne_nil (n : Nat) : natRepr n ≠ [] := by
  unfold natRepr
  split
  · simp
  · simp

theorem digitChar_mem (n : Nat) : digitChar n ∈ "0123456789".data := by
  unfold digitChar
  split <;> decide

theorem digitChar_inj {a b : Nat} (ha : a < 10) (hb : b < 10)
    (h : digitChar a = digitChar b) : a = b := by
  interval_cases a <;> interval_cases b <;> revert h <;> decide

theorem natRepr_mem (n : Nat) : ∀ c ∈ natRepr n, c ∈ "0123456789".data := by
  induction n using Nat.strong_induction_on with
  | _ n ih =>
    intro c hc
    unfold natRepr at hc
    split at hc
    · rw [List.mem_singleton] at hc
      rw [hc]
      exact digitChar_mem n
    · rename_i hn
      rcases List.mem_append.mp hc with h1 | h1
      · exact ih (n / 10) (Nat.div_lt_self (by omega) (by omega)) c h1
      · rw [List.mem_singleton] at h1
        rw [h1]
        exact digitChar_mem (n % 10)

theorem natRepr_inj : ∀ {a b : Nat}, natRepr a = natRepr b → a = b := by
  intro a
  induction a using Nat.strong_induction_on with
  | _ a ih =>
    intro b h
    by_cases ha : a < 10 <;> by_cases hb : b < 10
    · unfold natRepr at h
      rw [dif_pos ha, dif_pos hb] at h
      injection h with h1 _
      exact digitChar_inj ha hb h1
    · exfalso
      unfold natRepr at h
      rw [dif_pos ha, dif_neg hb] at h
      have hlen := congrArg List.length h
      rw [List.length_append] at hlen
      cases hb10 : natRepr (b / 10) with
      | nil => exact natRepr_ne_nil (b / 10) hb10
      | cons x xs =>
        rw [hb10] at hlen
        simp at hlen
    · exfalso
      unfold natRepr at h
      rw [dif_neg ha, dif_pos hb] at h
      have hlen := congrArg List.length h
      rw [List.length_append] at hlen
      cases ha10 : natRepr (a / 10) with
      | nil => exact natRepr_ne_nil (a / 10) ha10
      | cons x xs =>
        rw [ha10] at hlen
        simp at hlen
    · unfold natRepr at h
      rw [dif_neg ha, dif_neg hb] at h
      obtain ⟨hq, hr⟩ := List.append_inj' h rfl
      have hq2 : a / 10 = b / 10 := ih (a / 10) (Nat.div_lt_self (by omega) (by omega)) hq
      injection hr with hr1 _
      have hr2 : a % 10 = b % 10 :=
        digitChar_inj (Nat.mod_lt _ (by omega)) (Nat.mod_lt _ (by omega)) hr1
      omega

theorem natRepr_no_dash (n : Nat) : '-' ∉ natRepr n := by
  intro h
  have := natRepr_mem n '-' h
  revert this
  decide

theorem natRepr_no_comma (n : Nat) : ',' ∉ natRepr n := by
  intro h
  have := natRepr_mem n ',' h
  revert this
  decide

theorem intRepr_ne_nil (i : Int) : intRepr i ≠ [] := by
  cases i with
  | ofNat n => exact natRepr_ne_nil n
  | negSucc n => exact List.cons_ne_nil _ _

theorem intRepr_no_comma (i : Int) : ',' ∉ intRepr i := by
  cases i with
  | ofNat n => exact natRepr_no_comma n
  | negSucc n =>
    intro h
    rcases List.mem_cons.mp h with h1 | h1
    · exact absurd h1 (by decide)
    · exact natRepr_no_comma (n + 1) h1

theorem intRepr_inj : Function.Injective intRepr := by
  intro i j h
  cases i with
  | ofNat a =>
    cases j with
    | ofNat b => exact congrArg Int.ofNat (natRepr_inj h)
    | negSucc b =>
      exfalso
      cases ha : natRepr a with
      | nil => exact natRepr_ne_nil a ha
      | cons c cs =>
        have h' : natRepr a = '-' :: natRepr (b + 1) := h
        rw [ha] at h'
        injection h' with h1 _
        have hm : c ∈ natRepr a := by rw [ha]; exact List.mem_cons_self _ _
        rw [h1] at hm
        exact natRepr_no_dash a hm
  | negSucc a =>
    cases j with
    | ofNat b =>
      exfalso
      cases hb : natRepr b with
      | nil => exact natRepr_ne_nil b hb
      | cons c cs =>
        have h' : '-' :: natRepr (a + 1) = natRepr b := h
        rw [hb] at h'
        injection h' with h1 _
        have hm : c ∈ natRepr b := by rw [hb]; exact List.mem_cons_self _ _
        rw [← h1] at hm
        exact natRepr_no_dash b hm
    | negSucc b =>
      have h' : '-' :: natRepr (a + 1) = '-' :: natRepr (b + 1) := h
      injection h' with _ h2
      have hab : a + 1 = b + 1 := natRepr_inj h2
      have : a = b := by omega
      rw [this]

theorem split_comma : ∀ {a : List Char} {b u v : List Char}, ',' ∉ a → ',' ∉ b →
    a ++ ',' :: u = b ++ ',' :: v → a = b ∧ u = v := by
  intro a
  induction a with
  | nil =>
    intro b u v _ hb h
    cases b with
    | nil =>
      rw [List.nil_append, List.nil_append] at h
      injection h with _ h2
      exact ⟨rfl, h2⟩
    | cons c cs =>
      rw [List.nil_append, List.cons_append] at h
      injection h with h1 _
      exact absurd (by rw [← h1]; exact List.mem_cons_self _ _ : ',' ∈ c :: cs) hb
  | cons x xs ih =>
    intro b u v ha hb h
    cases b with
    | nil =>
      rw [List.cons_append, List.nil_append] at h
      injection h with h1 _
      exact absurd (by rw [h1]; exact List.mem_cons_self _ _ : ',' ∈ x :: xs) ha
    | cons y ys =>
      rw [List.cons_append, List.cons_append] at h
      injection h with h1 h2
      have ha' : ',' ∉ xs := fun hm => ha (List.mem_cons_of_mem _ hm)
      have hb' : ',' ∉ ys := fun hm => hb (List.mem_cons_of_mem _ hm)
      obtain ⟨he, hu⟩ := ih ha' hb' h2
      exact ⟨by rw [h1, he], hu⟩

theorem joinSep_comma_mem (x y : List Char) (r : List (List Char)) :
    ',' ∈ joinSep (x :: y :: r) := by
  show ',' ∈ x ++ ',' :: ' ' :: joinSep (y :: r)
  rw [List.mem_append]
  right
  exact List.mem_cons_self _ _

theorem joinSep_inj : ∀ (l1 l2 : List (List Char)),
    (∀ x ∈ l1, ',' ∉ x ∧ x ≠ []) → (∀ x ∈ l2, ',' ∉ x ∧ x ≠ []) →
    joinSep l1 = joinSep l2 → l1 = l2 := by
  intro l1
  induction l1 with
  | nil =>
    intro l2 _ h2 h
    cases l2 with
    | nil => rfl
    | cons y ys =>
      cases ys with
      | nil =>
        have hy : joinSep [y] = y := rfl
        rw [hy] at h
        exact absurd h.symm (h2 y (List.mem_cons_self _ _)).2
      | cons z zs =>
        exfalso
        have hcm := joinSep_comma_mem y z zs
        rw [← h] at hcm
        simp [joinSep] at hcm
  | cons x xs ih =>
    intro l2 h1 h2 h
    cases l2 with
    | nil =>
      cases xs with
      | nil =>
        have hx : joinSep [x] = x := rfl
        rw [hx] at h
        exact absurd h (h1 x (List.mem_cons_self _ _)).2
      | cons w ws =>
        exfalso
        have hcm := joinSep_comma_mem x w ws
        rw [h] at hcm
        simp [joinSep] at hcm
    | cons y ys =>
      cases xs with
      | nil =>
        cases ys with
        | nil =>
          have hx : joinSep [x] = x := rfl
          have hy : joinSep [y] = y := rfl
          rw [hx, hy] at h
          rw [h]
        | cons z zs =>
          exfalso
          have hcm := joinSep_comma_mem y z zs
          rw [← h] at hcm
          exact (h1 x (List.mem_cons_self _ _)).1 hcm
      | cons w ws =>
        cases ys with
        | nil =>
          exfalso
          have hcm := joinSep_comma_mem x w ws
          rw [h] at hcm
          exact (h2 y (List.mem_cons_self _ _)).1 hcm
        | cons z zs =>
          have h' : x ++ ',' :: (' ' :: joinSep (w :: ws))
              = y ++ ',' :: (' ' :: joinSep (z :: zs)) := h
          obtain ⟨hxy, htail⟩ :=
            split_comma (h1 x (List.mem_cons_self _ _)).1 (h2 y (List.mem_cons_self _ _)).1 h'
          injection htail with _ htail2
          have hrest := ih (z :: zs)
            (fun a hm => h1 a (List.mem_cons_of_mem _ hm))
            (fun a hm => h2 a (List.mem_cons_of_mem _ hm)) htail2
          rw [hxy, hrest]

theorem pyRepr_inj : Function.Injective pyReprIntList := by
  intro l1 l2 h
  unfold pyReprIntList at h
  injection h with _ h2
  have h3 := (List.append_inj' h2 rfl).1
  have conds : ∀ (l : List Int), ∀ x ∈ l.map intRepr, ',' ∉ x ∧ x ≠ [] := by
    intro l x hx
    obtain ⟨i, _, hix⟩ := List.mem_map.mp hx
    rw [← hix]
    exact ⟨intRepr_no_comma i, intRepr_ne_nil i⟩
  have h4 := joinSep_inj _ _ (conds l1) (conds l2) h3
  exact intRepr_inj.list_map h4

theorem identityKeyMI_iff (html : List Char) (f1 f2 : Bool) (h1 h2 : List Int) :
    identityKeyMI html f1 h1 = identityKeyMI html f2 h2 ↔ (f1 = f2 ∧ h1 = h2) := by
  constructor
  · intro h
    unfold identityKeyMI at h
    rw [List.append_assoc, List.append_assoc] at h
    have h2' := List.append_cancel_left h
    cases f1 <;> cases f2
    · refine ⟨rfl, ?_⟩
      have h3 := List.append_cancel_left h2'
      exact pyRepr_inj h3
    · exfalso
      have hF : some 'F' = some 'T' := congrArg List.head? h2'
      exact absurd hF (by decide)
    · exfalso
      have hF : some 'T' = some 'F' := congrArg List.head? h2'
      exact absurd hF (by decide)
    · refine ⟨rfl, ?_⟩
      have h3 := List.append_cancel_left h2'
      exact pyRepr_inj h3
  · rintro ⟨rfl, rfl⟩
    rfl

/-! ### Lemmas: counting widget-reference tags -/

theorem widgetHtml_decomp (wid : String) :
    solaraWidgetHtml wid
      = jwDivHead ++ (jwPat ++ (jwMid ++ (wid.data ++ jwPost))) := by
  unfold solaraWidgetHtml jwDivHead jwPat jwMid jwPost
  have e : "<div class=\"solara-markdown-output v-card v-sheet elevation-7\"><jupyter-widget widget=\"IPY_MODEL_".data
      = "<div class=\"solara-markdown-output v-card v-sheet elevation-7\">".data
        ++ ("<jupyter-widget".data ++ " widget=\"IPY_MODEL_".data) := by decide
  rw [e]
  simp [List.append_assoc]

theorem jwPat_cons : jwPat = '<' :: 'j' :: "upyter-widget".data := by decide

theorem widget_count {wid : String} (hw : '<' ∉ wid.data) (src : List Char) :
    countPat jwPat (pygmentsHighlight src ++ solaraWidgetHtml wid) = 1 := by
  rw [widgetHtml_decomp]
  rw [← List.append_assoc (pygmentsHighlight src) jwDivHead]
  have hA : hasPair '<' 'j' (pygmentsHighlight src ++ jwDivHead) = false := by
    refine hasPair_append (pyg_no_pair src) (by decide) ?_
    intro hpr
    exact absurd hpr.2 (by decide)
  rw [jwPat_cons]
  have hc1 : ¬(lastOpt (pygmentsHighlight src ++ jwDivHead) = some '<'
      ∧ (('<' :: 'j' :: "upyter-widget".data) ++ (jwMid ++ (wid.data ++ jwPost))).head?
          = some 'j') := by
    intro hpr
    have h2 := hpr.2
    rw [List.cons_append, List.head?_cons] at h2
    injection h2 with h3
    exact absurd h3 (by decide)
  rw [countPat_append_left _ hA hc1]
  rw [countPat_cons_self]
  have htail : hasPair '<' 'j'
      (('j' :: "upyter-widget".data) ++ (jwMid ++ (wid.data ++ jwPost))) = false := by
    refine hasPair_append (by decide) ?_ ?_
    · refine hasPair_append (by decide) ?_ ?_
      · refine hasPair_append
          (hasPair_no_left 'j' (fun c hc hce => hw (hce ▸ hc))) (by decide) ?_
        intro hpr
        exact hw (lastOpt_mem hpr.1)
      · intro hpr
        exact absurd hpr.1 (by decide)
    · intro hpr
      exact absurd hpr.1 (by decide)
  rw [countPat_zero _ htail]

theorem template_no_widget {html : List Char} (hh : hasPair '<' 'j' html = false) :
    countPat jwPat (markdownTemplate html []) = 0 := by
  rw [jwPat_cons]
  apply countPat_zero
  unfold markdownTemplate
  rw [List.append_nil]
  refine hasPair_append ?_ (by decide) ?_
  · refine hasPair_append ?_ hh ?_
    · decide
    · intro hpr
      have h1 := hpr.1
      rw [lastOpt_append _ (by decide : templateMid.data ≠ [])] at h1
      exact absurd h1 (by decide)
  · intro hpr
    exact absurd hpr.2 (by decide)

theorem infix_template {html m : List Char} (style : List Char) (hm : m <:+: html) :
    m <:+: markdownTemplate html style := by
  apply hm.trans
  unfold markdownTemplate
  have hre : templateHead.data ++ style ++ templateMid.data ++ html ++ templateTail.data
      = (templateHead.data ++ style ++ templateMid.data) ++ html ++ templateTail.data := by
    simp [List.append_assoc]
  rw [hre]
  exact List.infix_append _ _ _

/-! ### The claims -/

/-- C1 counterexample: in the `Markdown` component, a live fence whose code
defines neither `app` nor `Page` does NOT abort the document render.  The
fence handler catches the `NameError`, logs it, and substitutes the inline
fragment `repr(e)`: the render completes and its output contains the
exception text. -/
theorem c1_counterexample :
    (Markdown cEngineSolara (fun _ _ => []) cSemNone "doc" true "").2
        = ["Error highlighting code: x = 1"]
    ∧ reprHlErr (HlErr.nameError "No Page of app defined")
        <:+: (Markdown cEngineSolara (fun _ _ => []) cSemNone "doc" true "").1.key := by
  refine ⟨by decide, ?_⟩
  exact ⟨[], "True".data, by decide⟩

/-- C1 (amended): with execution enabled and a live fence defining neither
`app` nor `Page`, `_run_solara` raises `NameError("No Page of app defined")`;
in the `MarkdownIt` component this fault propagates and aborts the whole
document render; in the `Markdown` component the fence wrapper catches it,
logs a warning, and replaces the fence by the inline fragment `repr(e)`, so
the render continues. -/
theorem c1_amended (e : Engine) (sem : ExecSem) (t code : String) (hl : List Int)
    (scope : Scope) (pre post : List Block) (h0 : List Char)
    (hex : sem.exec code [] = Except.ok scope)
    (happ : scope.lookup "app" = none) (hpage : scope.lookup "Page" = none)
    (htok : e.tokenize (dedent t) = pre ++ Block.fence "solara" code :: post)
    (hpre : renderBlocksMI e sem true pre = Except.ok h0) :
    _run_solara sem code = Except.error (HlErr.nameError "No Page of app defined")
    ∧ MarkdownIt e sem t hl true = Except.error (HlErr.nameError "No Page of app defined")
    ∧ markdownHighlightFence sem code "solara" true
        = (reprHlErr (HlErr.nameError "No Page of app defined"),
           ["Error highlighting code: " ++ code]) := by
  have hrun : _run_solara sem code
      = Except.error (HlErr.nameError "No Page of app defined") := by
    unfold _run_solara
    simp only [hex, happ, hpage]
  have hfence : _highlight sem code "solara" true
      = Except.error (HlErr.nameError "No Page of app defined") := by
    rw [highlight_solara_enabled, hrun]
  refine ⟨hrun, ?_, ?_⟩
  · unfold MarkdownIt
    rw [htok, rb_append]
    have hfrb : renderBlocksMI e sem true (Block.fence "solara" code :: post)
        = Except.error (HlErr.nameError "No Page of app defined") := by
      simp only [renderBlocksMI, hfence]
    simp only [hpre, hfrb]
  · unfold markdownHighlightFence
    rw [hfence]

theorem c1_amended_witness :
    _run_solara cSemNone "x = 1" = Except.error (HlErr.nameError "No Page of app defined")
    ∧ MarkdownIt cEngineSolara cSemNone "doc" [] true
        = Except.error (HlErr.nameError "No Page of app defined")
    ∧ markdownHighlightFence cSemNone "x = 1" "solara" true
        = (reprHlErr (HlErr.nameError "No Page of app defined"),
           ["Error highlighting code: " ++ "x = 1"]) :=
  c1_amended cEngineSolara cSemNone "doc" "x = 1" [] [("x", PyVal.obj 0)] [] [] []
    rfl (by decide) (by decide) (by decide) rfl

/-- C2: with execution disabled, a document with a live (`solara`) fence
renders to output that contains the static disabled notice and no
widget-reference tag; and the whole render is independent of the execution
semantics (the fence body is never compiled or run: no observable effect of
the code can influence the result). -/
theorem c2_disabled_notice (e : Engine) (sem sem' : ExecSem) (t code : String) (hl : List Int)
    (pre post : List Block) (u : RenderedUnit)
    (hT : ∀ s, hasPair '<' 'j' (e.renderText s) = false ∧ lastOpt (e.renderText s) ≠ some '<')
    (htok : e.tokenize (dedent t) = pre ++ Block.fence "solara" code :: post)
    (hok : MarkdownIt e sem t hl false = Except.ok u) :
    MarkdownIt e sem t hl false = MarkdownIt e sem' t hl false
    ∧ html_no_execute_enabled.data <:+: u.template
    ∧ countPat jwPat u.template = 0 := by
  have hirrel : MarkdownIt e sem t hl false = MarkdownIt e sem' t hl false := by
    unfold MarkdownIt
    rw [rb_sem_irrel e sem sem' false (e.tokenize (dedent t)) (fun _ _ _ => Or.inr rfl)]
  unfold MarkdownIt at hok
  cases hrb : renderBlocksMI e sem false (e.tokenize (dedent t)) with
  | error err => simp [hrb] at hok
  | ok html =>
    simp only [hrb, Except.ok.injEq] at hok
    refine ⟨hirrel, ?_, ?_⟩
    · rw [← hok]
      show html_no_execute_enabled.data <:+: markdownTemplate html []
      rw [htok, rb_append] at hrb
      cases hpre2 : renderBlocksMI e sem false pre with
      | error err => simp [hpre2] at hrb
      | ok h1 =>
        simp only [hpre2] at hrb
        cases hfp : renderBlocksMI e sem false (Block.fence "solara" code :: post) with
        | error err => simp [hfp] at hrb
        | ok hf =>
          simp only [hfp, Except.ok.injEq] at hrb
          simp only [renderBlocksMI, highlight_solara_disabled] at hfp
          cases hpost : renderBlocksMI e sem false post with
          | error err => simp [hpost] at hfp
          | ok h2 =>
            simp only [hpost, Except.ok.injEq] at hfp
            apply infix_template
            rw [← hrb, ← hfp]
            exact ⟨h1 ++ pygmentsHighlight code.data, h2, by simp [List.append_assoc]⟩
    · rw [← hok]
      have hben := rb_benign hT (fun _ _ _ => Or.inr rfl) hrb
      exact template_no_widget hben.1

theorem c2_witness :
    MarkdownIt cEngineSolara cSemNone "doc" [] false
      = MarkdownIt cEngineSolara cSemApp "doc" [] false
    ∧ html_no_execute_enabled.data <:+: uC2.template
    ∧ countPat jwPat uC2.template = 0 :=
  c2_disabled_notice cEngineSolara cSemNone cSemApp "doc" "x = 1" [] [] [] uC2
    (by
      intro s
      refine ⟨rfl, ?_⟩
      show lastOpt ([] : List Char) ≠ some '<'
      decide)
    (by decide) rfl

/-- C3: `_run_solara` compiles and executes the fence body in the fresh
empty scope (its result depends only on the behaviour of `exec` on the
empty initial scope and on the render call, witnessed by the third
conjunct); after execution, a binding `app` is used directly as the
component root even when `Page` is also bound (precedence), and otherwise a
binding `Page` is called with zero arguments and wrapped in
`_AppLayoutEmbed(children=[ExceptionGuard(children=[Page()])])`, the
page-layout shell with error-boundary behaviour. -/
theorem c3_executor (sem semP s1 s2 : ExecSem) (code : String) (scope scopeP : Scope)
    (a pv : PyVal)
    (hex : sem.exec code [] = Except.ok scope)
    (ha : scope.lookup "app" = some a)
    (hexP : semP.exec code [] = Except.ok scopeP)
    (haP : scopeP.lookup "app" = none) (hpP : scopeP.lookup "Page" = some pv)
    (hsame : s1.exec code [] = s2.exec code [])
    (hrend : ∀ c, s1.renderApp c = s2.renderApp c) :
    _run_solara sem code = Except.ok (solaraWidgetHtml (sem.renderApp (Component.ofVal a)))
    ∧ _run_solara semP code = Except.ok (solaraWidgetHtml (semP.renderApp
        (Component.appLayoutEmbed (Component.exceptionGuard (Component.callZeroArgs pv)))))
    ∧ _run_solara s1 code = _run_solara s2 code := by
  refine ⟨?_, ?_, ?_⟩
  · unfold _run_solara
    simp only [hex, ha]
  · unfold _run_solara
    simp only [hexP, haP, hpP]
  · unfold _run_solara
    rw [hsame, funext hrend]

theorem c3_witness :
    _run_solara cSemApp "x = 1"
      = Except.ok (solaraWidgetHtml (cSemApp.renderApp (Component.ofVal (PyVal.obj 1))))
    ∧ _run_solara cSemPage "x = 1" = Except.ok (solaraWidgetHtml (cSemPage.renderApp
        (Component.appLayoutEmbed (Component.exceptionGuard (Component.callZeroArgs (PyVal.obj 2))))))
    ∧ _run_solara cSemApp "x = 1" = _run_solara cSemApp2 "x = 1" :=
  c3_executor cSemApp cSemPage cSemApp cSemApp2 "x = 1"
    [("app", PyVal.obj 1), ("Page", PyVal.obj 2)] [("Page", PyVal.obj 2)]
    (PyVal.obj 1) (PyVal.obj 2)
    rfl (by decide) rfl (by decide) (by decide) rfl
    (fun _ => rfl)

/-- C4: in `MarkdownIt` the identity key is the SHA-256 digest of exactly
the triple (final html, execution-enabled flag, highlight-line list),
modelled by the digested input string; renders agreeing on the triple share
the key, and for a fixed html the key determines (and is determined by) the
flag and the highlight list, so changing either yields a different key. -/
theorem c4_identity_key (e : Engine) (sem : ExecSem) (t : String) (hl : List Int) (ex : Bool)
    (u : RenderedUnit) (html : List Char) (f1 f2 : Bool) (h1 h2 : List Int)
    (hok : MarkdownIt e sem t hl ex = Except.ok u) :
    (∃ h0, u.template = markdownTemplate h0 [] ∧ u.key = identityKeyMI h0 ex hl)
    ∧ (identityKeyMI html f1 h1 = identityKeyMI html f2 h2 ↔ (f1 = f2 ∧ h1 = h2)) := by
  refine ⟨?_, identityKeyMI_iff html f1 f2 h1 h2⟩
  unfold MarkdownIt at hok
  cases hrb : renderBlocksMI e sem ex (e.tokenize (dedent t)) with
  | error err => simp [hrb] at hok
  | ok html0 =>
    simp only [hrb, Except.ok.injEq] at hok
    exact ⟨html0, by rw [← hok], by rw [← hok]⟩

theorem c4_witness :
    (∃ h0, uC4.template = markdownTemplate h0 [] ∧ uC4.key = identityKeyMI h0 true [1, 2])
    ∧ (identityKeyMI "x".data true [1, 2] = identityKeyMI "x".data true [1, 3]
        ↔ (true = true ∧ [1, 2] = ([1, 3] : List Int))) :=
  c4_identity_key cEngineNil cSemNone "" [1, 2] true uC4 "x".data true true [1, 2] [1, 3]
    rfl

/-- C5 counterexample: a fence with an unregistered language tag
(`brainfuck9000`, body `++`) makes the `MarkdownIt` render raise
`ClassNotFound` and abort, contradicting the claim that the render does not
raise and substitutes the escaped literal source. -/
theorem c5_counterexample :
    MarkdownIt cEngineBF cSemNone "doc" [] false
      = Except.error (HlErr.classNotFound "no lexer for alias \x27brainfuck9000\x27 found") := rfl

/-- C5 (amended): a fenced block whose language tag has no registered lexer
makes `get_lexer_by_name` raise `ClassNotFound`; in the `MarkdownIt`
component this propagates and aborts the whole render (there is no
escaped-source fallback); in the `Markdown` component the fence wrapper
catches any `_highlight` fault, logs a warning, and substitutes the inline
fragment `repr(e)` (not the escaped source), letting the rest of the
document render. -/
theorem c5_amended (e : Engine) (sem : ExecSem) (t code lang : String) (hl : List Int) (ex : Bool)
    (pre post : List Block) (h0 : List Char) (src2 lang2 : String) (err2 : HlErr)
    (hlang : lang ∉ registeredLexerAliases) (hns : lang ≠ "solara")
    (htok : e.tokenize (dedent t) = pre ++ Block.fence lang code :: post)
    (hpre : renderBlocksMI e sem ex pre = Except.ok h0)
    (hherr : _highlight sem src2 lang2 ex = Except.error err2) :
    MarkdownIt e sem t hl ex
      = Except.error (HlErr.classNotFound ("no lexer for alias \x27" ++ lang ++ "\x27 found"))
    ∧ markdownHighlightFence sem src2 lang2 ex
      = (reprHlErr err2, ["Error highlighting code: " ++ src2]) := by
  have hlex : getLexerByName lang
      = Except.error (HlErr.classNotFound ("no lexer for alias \x27" ++ lang ++ "\x27 found")) := by
    unfold getLexerByName
    rw [if_neg hlang]
  have hfence : _highlight sem code lang ex
      = Except.error (HlErr.classNotFound ("no lexer for alias \x27" ++ lang ++ "\x27 found")) := by
    rw [highlight_other_lang sem code lang ex hns, hlex]
  constructor
  · unfold MarkdownIt
    rw [htok, rb_append]
    have hfrb : renderBlocksMI e sem ex (Block.fence lang code :: post)
        = Except.error (HlErr.classNotFound ("no lexer for alias \x27" ++ lang ++ "\x27 found")) := by
      simp only [renderBlocksMI, hfence]
    simp only [hpre, hfrb]
  · unfold markdownHighlightFence
    rw [hherr]

theorem c5_amended_witness :
    MarkdownIt cEngineBF cSemNone "doc" [] false
      = Except.error (HlErr.classNotFound ("no lexer for alias \x27" ++ "brainfuck9000" ++ "\x27 found"))
    ∧ markdownHighlightFence cSemNone "++" "brainfuck9000" false
      = (reprHlErr (HlErr.classNotFound ("no lexer for alias \x27brainfuck9000\x27 found")),
         ["Error highlighting code: " ++ "++"]) :=
  c5_amended cEngineBF cSemNone "doc" "++" "brainfuck9000" [] false [] [] [] "++" "brainfuck9000"
    (HlErr.classNotFound ("no lexer for alias \x27brainfuck9000\x27 found"))
    (by decide) (by decide) (by decide) rfl rfl

/-- C6: with execution enabled, a live fence whose code binds `app` produces
the syntax-highlighted source followed by the widget-reference markup whose
id is the framework-assigned widget id of the freshly rendered detached
container, and the fragment contains exactly one widget-reference tag
(assuming, as for real id strings, that the id contains no `<`). -/
theorem c6_widget_ref (sem : ExecSem) (code : String) (scope : Scope) (a : PyVal)
    (hex : sem.exec code [] = Except.ok scope)
    (happ : scope.lookup "app" = some a)
    (hid : '<' ∉ (sem.renderApp (Component.ofVal a)).data) :
    _highlight sem code "solara" true
      = Except.ok (pygmentsHighlight code.data
          ++ solaraWidgetHtml (sem.renderApp (Component.ofVal a)))
    ∧ countPat jwPat (pygmentsHighlight code.data
        ++ solaraWidgetHtml (sem.renderApp (Component.ofVal a))) = 1 := by
  have hrun : _run_solara sem code
      = Except.ok (solaraWidgetHtml (sem.renderApp (Component.ofVal a))) := by
    unfold _run_solara
    simp only [hex, happ]
  refine ⟨?_, widget_count hid code.data⟩
  rw [highlight_solara_enabled, hrun]

theorem c6_witness :
    _highlight cSemApp "x = 1" "solara" true
      = Except.ok (pygmentsHighlight "x = 1".data
          ++ solaraWidgetHtml (cSemApp.renderApp (Component.ofVal (PyVal.obj 1))))
    ∧ countPat jwPat (pygmentsHighlight "x = 1".data
        ++ solaraWidgetHtml (cSemApp.renderApp (Component.ofVal (PyVal.obj 1)))) = 1 :=
  c6_widget_ref cSemApp "x = 1" [("app", PyVal.obj 1), ("Page", PyVal.obj 2)] (PyVal.obj 1)
    rfl (by decide) (by decide)

/-- C7: for documents whose fences are all non-live, the `MarkdownIt` render
is deterministic: its result (template and identity key alike) does not
depend on the execution semantics, which is the only source of freshness
between two render passes (exec effects and framework-assigned widget
ids). -/
theorem c7_deterministic (e : Engine) (sem1 sem2 : ExecSem) (t : String) (hl : List Int)
    (ex : Bool)
    (hfences : ∀ lang body, Block.fence lang body ∈ e.tokenize (dedent t) → lang ≠ "solara") :
    MarkdownIt e sem1 t hl ex = MarkdownIt e sem2 t hl ex := by
  unfold MarkdownIt
  rw [rb_sem_irrel e sem1 sem2 ex (e.tokenize (dedent t))
    (fun lang body hm => Or.inl (hfences lang body hm))]

theorem c7_witness :
    MarkdownIt cEnginePy cSemApp "doc" [] true = MarkdownIt cEnginePy cSemAlt "doc" [] true :=
  c7_deterministic cEnginePy cSemApp cSemAlt "doc" [] true (by
    intro lang body hm
    have hm2 : Block.fence lang body ∈ [Block.fence "python" "x = 1"] := hm
    rw [List.mem_singleton] at hm2
    injection hm2 with hlang _
    rw [hlang]
    decide)

/-- C8: a document whose fenced blocks are all non-live renders (when it
renders successfully) to output containing no live-widget-reference tag;
the ordinary-markdown spans are delegated to the external engine, assumed
not to emit widget-tag openings. -/
theorem c8_no_widget_tags (e : Engine) (sem : ExecSem) (t : String) (hl : List Int) (ex : Bool)
    (u : RenderedUnit)
    (hT : ∀ s, hasPair '<' 'j' (e.renderText s) = false ∧ lastOpt (e.renderText s) ≠ some '<')
    (hfences : ∀ lang body, Block.fence lang body ∈ e.tokenize (dedent t) → lang ≠ "solara")
    (hok : MarkdownIt e sem t hl ex = Except.ok u) :
    countPat jwPat u.template = 0 := by
  unfold MarkdownIt at hok
  cases hrb : renderBlocksMI e sem ex (e.tokenize (dedent t)) with
  | error err => simp [hrb] at hok
  | ok html =>
    simp only [hrb, Except.ok.injEq] at hok
    have hben := rb_benign hT (fun l b hm => Or.inl (hfences l b hm)) hrb
    rw [← hok]
    exact template_no_widget hben.1

theorem c8_witness : countPat jwPat uC8.template = 0 :=
  c8_no_widget_tags cEnginePy cSemNone "doc" [] true uC8
    (by
      intro s
      refine ⟨rfl, ?_⟩
      show lastOpt ([] : List Char) ≠ some '<'
      decide)
    (by
      intro lang body hm
      have hm2 : Block.fence lang body ∈ [Block.fence "python" "x = 1"] := hm
      rw [List.mem_singleton] at hm2
      injection hm2 with hlang _
      rw [hlang]
      decide)
    rfl

/-- C9: indentation is normalized before tokenizing: prefixing every line
of the document with one uniform whitespace run is erased by
`textwrap.dedent`, so both components render the prefixed document exactly
as the unprefixed one. -/
theorem c9_dedent_invariance (e : Engine) (otherFence : String → String → List Char)
    (sem : ExecSem) (p s : String) (hl : List Int) (ex : Bool) (style : String)
    (hp : p.data.all isWsChar = true) :
    MarkdownIt e sem (indentDoc p s) hl ex = MarkdownIt e sem s hl ex
    ∧ Markdown e otherFence sem (indentDoc p s) ex style
      = Markdown e otherFence sem s ex style := by
  constructor
  · unfold MarkdownIt
    rw [dedent_indent hp]
  · unfold Markdown
    rw [dedent_indent hp]

theorem c9_witness :
    MarkdownIt cEngineNil cSemNone (indentDoc "  " "a\n b") [] false
      = MarkdownIt cEngineNil cSemNone "a\n b" [] false
    ∧ Markdown cEngineNil (fun _ _ => []) cSemNone (indentDoc "  " "a\n b") false ""
      = Markdown cEngineNil (fun _ _ => []) cSemNone "a\n b" false "" :=
  c9_dedent_invariance cEngineNil (fun _ _ => []) cSemNone "  " "a\n b" [] false "" (by decide)

/-- C10: the template markup produced by `MarkdownIt` is independent of the
`highlight` argument — the highlight-line list flows only into the identity
key. -/
theorem c10_template_independent (e : Engine) (sem : ExecSem) (t : String) (ex : Bool)
    (hl1 hl2 : List Int) :
    (MarkdownIt e sem t hl1 ex).map RenderedUnit.template
      = (MarkdownIt e sem t hl2 ex).map RenderedUnit.template := by
  unfold MarkdownIt
  cases hrb : renderBlocksMI e sem ex (e.tokenize (dedent t)) <;> simp [hrb, Except.map]

end Solara
